import Mathlib

/-!
Verification development for the MADlib Flajolet-Martin distinct-count
sketch (src/methods/sketch/src/pg_gp/fm.c).

The file shallowly embeds the aggregate transition function, the sketch
update, the estimator, the merge function and the sortasort insertion
wrapper.  Components of the repository that are not part of fm.c
(the sortasort container, the md5 digest, and the bit helpers
rightmost_one / leftmost_zero / array_set_bit_in_place) are modelled
from the specification, following the conventions documented in the
comments of fm.c itself.  Machine integers are modelled as Nat; each of
the NMAP bitmaps is a Nat whose testBit j is the bit at position j
counted from the least-significant end, so the bit at position p
counted from the most-significant end of a W-bit bitmap is
testBit (W - 1 - p).  Fallible operations (elog ERROR, and the SQL NULL
return of the transition function) return Option.
-/

/-- NMAP from fm.c: number of independent bitmaps in a sketch. -/
def NMAP : Nat := 256

/-- MD5_HASHLEN_BITS: width W of a digest and of each bitmap, in bits. -/
def MD5_HASHLEN_BITS : Nat := 128

/-- MINVALS from fm.c: exact-counting threshold. -/
def MINVALS : Nat := 1024 * 12

/-- Modelled from the spec: initial string-storage budget of a fresh
sortasort (SORTASORT_INITIAL_STORAGE in fm.c guesses 8 bytes per string
plus directory space; the fixed header size is omitted since no claim
depends on the exact constant). -/
def SORTASORT_INITIAL_STORAGE : Nat := MINVALS * 4 + 8 * MINVALS

/-- A value, as the canonical byte string produced by the type output
function (the contents of a C string, without its null terminator). -/
abbrev V := List Nat

/-- Modelled from the spec: strcmp-style lexicographic strict order on
byte strings, used by the sorted directory of the sortasort (the
sortasort library is not part of fm.c). -/
def lexLt : V → V → Bool
  | [], [] => false
  | [], _ :: _ => true
  | _ :: _, [] => false
  | a :: as, b :: bs => if a < b then true else if b < a then false else lexLt as bs

/-- Modelled from the spec: the sortasort directory over a growable byte
storage area.  vals is the directory in sorted order; capacity is the
directory slot limit; storage_sz the byte budget of the storage area. -/
structure sortasort where
  capacity : Nat
  storage_sz : Nat
  vals : List V
deriving DecidableEq

/-- Storage bytes consumed by a directory: each value is stored
null-terminated, so it occupies length + 1 bytes. -/
def usedOf (l : List V) : Nat := (l.map (fun v => v.length + 1)).sum

/-- Storage bytes consumed by the values of a sortasort. -/
def usedStorage (s : sortasort) : Nat := usedOf s.vals

/-- Insert a value at its sorted position in the directory. -/
def insertSorted (v : V) : List V → List V
  | [] => [v]
  | w :: ws => if lexLt v w then v :: w :: ws else w :: insertSorted v ws

/-- Result of sortasort_try_insert: Inserted / AlreadyPresent /
InsufficientStorage, plus the negative return for a full directory. -/
inductive TryRes where
  | inserted (s : sortasort)
  | alreadyPresent
  | insufficientStorage
  | dirFull
deriving DecidableEq

/-- Modelled from the spec: sortasort_try_insert.  Membership test via
the (binary-searched) sorted directory; present values cause no
mutation; absent values are inserted at their sorted position when the
storage area has room, and InsufficientStorage is returned without
mutation otherwise.  A full directory is the fatal negative return. -/
def sortasort_try_insert (s : sortasort) (v : V) : TryRes :=
  if v ∈ s.vals then .alreadyPresent
  else if s.capacity ≤ s.vals.length then .dirFull
  else if usedStorage s + (v.length + 1) ≤ s.storage_sz then
    .inserted { s with vals := insertSorted v s.vals }
  else .insufficientStorage

/-- Modelled from the spec: sortasort_init with a given capacity and
storage budget, holding no values. -/
def sortasort_init : sortasort :=
  { capacity := MINVALS, storage_sz := SORTASORT_INITIAL_STORAGE, vals := [] }

/-- fmsketch_sortasort_insert from fm.c: elog (none) when the directory
is already full or try_insert reports a full directory; otherwise try
the insert, and on InsufficientStorage regrow the storage area to
2 * storage_sz + strlen(v) (copying directory and stored bytes) and
retry once.  The C while loop would iterate further, but under the
storage invariant the retry provably succeeds, so further iterations
are dead code (the source itself notes the loop succeeds first try). -/
def fmsketch_sortasort_insert (s : sortasort) (v : V) : Option sortasort :=
  if s.capacity ≤ s.vals.length then none
  else
    match sortasort_try_insert s v with
    | .dirFull => none
    | .alreadyPresent => some s
    | .inserted s' => some s'
    | .insufficientStorage =>
      let s2 : sortasort := { s with storage_sz := 2 * s.storage_sz + v.length }
      match sortasort_try_insert s2 v with
      | .inserted s' => some s'
      | .alreadyPresent => some s2
      | _ => none

/-- Structural scan for rightmost_one: the fuel argument only bounds
the recursion depth and never runs out on a nonzero value of at most
fuel. -/
def roAux : Nat → Nat → Nat
  | 0, _ => 0
  | fuel + 1, d => if d % 2 = 1 then 0 else roAux fuel (d / 2) + 1

/-- Modelled from the spec: rightmost_one of the digest (the bit helper
lives in the sketch support library, not in fm.c): the 0-based position
of the least-significant set bit, scanning from the low-order end. -/
def rightmost_one (d : Nat) : Nat := roAux d d

/-- Auxiliary scan for leftmost_zero: loAux bm k counts the consecutive
set bits of bm from bit position k - 1 downward, stopping at the first
unset bit. -/
def loAux (bm : Nat) : Nat → Nat
  | 0 => 0
  | k + 1 => if bm.testBit k then loAux bm k + 1 else 0

/-- Modelled from the spec: leftmost_zero of one W-bit bitmap (the bit
helper lives in the sketch support library, not in fm.c): the number of
consecutive set bits starting from the most-significant end before the
first unset bit. -/
def leadingOnes (bm : Nat) : Nat := loAux bm MD5_HASHLEN_BITS

/-- fm_new from fm.c: palloc0 gives a sketch of NMAP all-zero bitmaps. -/
def fm_new_sketch : List Nat := List.replicate NMAP 0

/-- __fmsketch_trans_c from fm.c, parametrized by the digest function h
(md5 is host code, modelled from the spec as an arbitrary deterministic
128-bit digest).  Chooses the bitmap indexed by the 64 high-order bits
of the digest mod NMAP and, per the comments of fm.c, turns on the
rmost-th bit from the left of that bitmap by passing bit position
(W - 1) - rmost counted from the right to array_set_bit_in_place.
A digest of zero sets no bit (modelled from the spec: the sketch
ignores an all-zero hash). -/
def fmsketch_trans_c (h : V → Nat) (sk : List Nat) (input : V) : List Nat :=
  if h input = 0 then sk
  else
    sk.set ((h input / 2 ^ 64) % NMAP)
      ((sk.getD ((h input / 2 ^ 64) % NMAP) 0) |||
        2 ^ (MD5_HASHLEN_BITS - 1 - rightmost_one (h input)))

/-- The aggregate transition value: the empty initial blob, a SMALL
sortasort, or a BIG sketch. -/
inductive FMState where
  | empty
  | small (s : sortasort)
  | big (sk : List Nat)
deriving DecidableEq

/-- __fmsketch_trans from fm.c.  A null argument takes the
PG_RETURN_NULL branch (none).  An empty blob is initialized to a fresh
SMALL sortasort and falls into the insertion branch.  A SMALL state
below MINVALS inserts into the sortasort; at exactly MINVALS it builds
a fresh sketch, replays every stored value into it in directory order,
and then inserts the current value in BIG mode; above MINVALS the
sanity check elogs (none).  A BIG state inserts into the sketch. -/
def fmsketch_trans (h : V → Nat) (st : FMState) (arg : Option V) : Option FMState :=
  match arg with
  | none => none
  | some v =>
    match st with
    | .empty => (fmsketch_sortasort_insert sortasort_init v).map .small
    | .small s =>
      if s.vals.length < MINVALS then
        (fmsketch_sortasort_insert s v).map .small
      else if s.vals.length = MINVALS then
        some (.big (fmsketch_trans_c h (s.vals.foldl (fmsketch_trans_c h) fm_new_sketch) v))
      else none
    | .big sk => some (.big (fmsketch_trans_c h sk v))

/-- Fold a sequence of non-null values into a state via the transition
function. -/
def insertSeq (h : V → Nat) (st : FMState) (vs : List V) : Option FMState :=
  vs.foldlM (fun st v => fmsketch_trans h st (some v)) st

/-- The Flajolet-Martin magic constant phi from fm.c. -/
noncomputable def phi : ℝ := 0.77351

/-- The summed leading-ones statistic S of __fmsketch_count_distinct_c:
the loop over the NMAP bitmaps accumulating leftmost_zero. -/
def sketchS (sk : List Nat) : Nat :=
  ((List.range NMAP).map (fun i => leadingOnes (sk.getD i 0))).sum

/-- __fmsketch_count_distinct_c from fm.c:
ceil((NMAP / phi) * 2 ^ (S / NMAP)). -/
noncomputable def fmsketch_count_distinct_c (sk : List Nat) : Nat :=
  Nat.ceil (((NMAP : ℝ) / phi) * (2 : ℝ) ^ ((sketchS sk : ℝ) / (NMAP : ℝ)))

/-- __fmsketch_count_distinct from fm.c: 0 for the never-inserted empty
blob, num_vals for a SMALL state, the estimator for a BIG state. -/
noncomputable def fmsketch_count_distinct : FMState → Nat
  | .empty => 0
  | .small s => s.vals.length
  | .big sk => fmsketch_count_distinct_c sk

/-- big_or from fm.c, at the byte level.  Its arguments are the VARDATA
byte sequences of the two transition blobs (mode tag bytes, inner bytea
header bytes, then the packed bitmap bytes).  It elogs on a size
mismatch; otherwise it pallocs an uninitialized output buffer (its
arbitrary initial contents are the junk argument) and the loop
for (i = 0; i < size; i += 8) copies the OR of the input bytes only at
every eighth byte offset, leaving the remaining bytes of the output as
they were allocated. -/
def big_or (junk b1 b2 : List Nat) : Option (List Nat) :=
  if b1.length = b2.length then
    some ((List.range b1.length).map
      (fun i => if i % 8 = 0 then (b1.getD i 0) ||| (b2.getD i 0) else junk.getD i 0))
  else none

/-- The 4-byte status word of the blob returned by big_or for two BIG
inputs.  The stride-8 loop of big_or writes only byte 0 of the status
field, which carries BIG ||| BIG = 1; bytes 1 to 3 keep the
uninitialized contents jstat of the palloc output buffer, so the
decoded little-endian status word is 1 ||| 256 * jstat. -/
def bigOrStatusWord (jstat : Nat) : Nat := 1 ||| 256 * jstat

/-- __fmsketch_merge from fm.c.  Either empty blob returns the other
side.  BIG with BIG returns the big_or output blob: its bitmap
contents mix OR bytes with uninitialized palloc bytes (see big_or and
the theorems about it) and are abstracted as the parameter bigOrC, and
its status field keeps the uninitialized bytes jstat above the single
written tag byte, so the blob decodes to a BIG-mode transval only when
those bytes are zero (bigOrStatusWord jstat = 1); for any other jstat
the tag is neither SMALL (0) nor BIG (1), the blob is not a well-formed
transval state (every later use fails the status sanity checks of
fm.c), and no FMState represents it, modelled as none.  SMALL with
SMALL inserts the smaller directory into the larger when the combined
count fits its capacity (ties make the second argument the larger
side, as in the C conditional), and otherwise falls through to
building a fresh sketch and replaying the values of the first transval
and then of the second.  Mixed modes replay the SMALL side into the
BIG side. -/
def fmsketch_merge (h : V → Nat) (bigOrC : List Nat → List Nat → List Nat)
    (jstat : Nat) : FMState → FMState → Option FMState
  | .empty, st2 => some st2
  | st1, .empty => some st1
  | .big sk1, .big sk2 =>
    if bigOrStatusWord jstat = 1 then some (.big (bigOrC sk1 sk2)) else none
  | .small s1, .small s2 =>
    let sbig := if s2.vals.length < s1.vals.length then s1 else s2
    let ssmall := if s2.vals.length < s1.vals.length then s2 else s1
    if sbig.vals.length + ssmall.vals.length ≤ sbig.capacity then
      (ssmall.vals.foldlM fmsketch_sortasort_insert sbig).map .small
    else
      some (.big (s2.vals.foldl (fmsketch_trans_c h)
        (s1.vals.foldl (fmsketch_trans_c h) fm_new_sketch)))
  | .small s1, .big sk2 => some (.big (s1.vals.foldl (fmsketch_trans_c h) sk2))
  | .big sk1, .small s2 => some (.big (s2.vals.foldl (fmsketch_trans_c h) sk1))

/-- The storage invariant of a sortasort: the stored bytes fit in the
storage budget, and the budget is positive. -/
def SInv (s : sortasort) : Prop := usedStorage s ≤ s.storage_sz ∧ 1 ≤ s.storage_sz

instance (s : sortasort) : Decidable (SInv s) := by
  unfold SInv; infer_instance

/-! ### Directory lemmas -/

theorem insertSorted_length (v : V) (l : List V) :
    (insertSorted v l).length = l.length + 1 := by
  induction l with
  | nil => rfl
  | cons w ws ih =>
    unfold insertSorted
    by_cases hw : lexLt v w
    · simp [hw]
    · simp [hw, ih]

theorem insertSorted_mem (v w : V) (l : List V) :
    w ∈ insertSorted v l ↔ w = v ∨ w ∈ l := by
  induction l with
  | nil => simp [insertSorted]
  | cons x xs ih =>
    unfold insertSorted
    by_cases hx : lexLt v x
    · simp [hx]
    · simp [hx, ih]
      tauto

theorem insertSorted_nodup (v : V) (l : List V) (hv : v ∉ l) (hl : l.Nodup) :
    (insertSorted v l).Nodup := by
  induction l with
  | nil => simp [insertSorted]
  | cons x xs ih =>
    unfold insertSorted
    rcases List.nodup_cons.mp hl with ⟨hx, hxs⟩
    have hvx : v ≠ x := fun h => hv (h ▸ List.mem_cons_self x xs)
    have hvxs : v ∉ xs := fun h => hv (List.mem_cons_of_mem x h)
    by_cases hc : lexLt v x
    · simp only [hc, if_true]
      refine List.nodup_cons.mpr ⟨?_, hl⟩
      intro hmem
      rcases List.mem_cons.mp hmem with h | h
      · exact hvx h
      · exact hvxs h
    · simp only [hc, if_false]
      refine List.nodup_cons.mpr ⟨?_, ih hvxs hxs⟩
      intro hmem
      rcases (insertSorted_mem v x xs).mp hmem with h | h
      · exact hvx h.symm
      · exact hx h

theorem insertSorted_usedOf (v : V) (l : List V) :
    usedOf (insertSorted v l) = usedOf l + (v.length + 1) := by
  induction l with
  | nil => simp [insertSorted, usedOf]
  | cons x xs ih =>
    unfold insertSorted
    by_cases hc : lexLt v x
    · simp [hc, usedOf]
      ring
    · simp [hc, usedOf] at *
      omega

/-- Successful-insert characterization of fmsketch_sortasort_insert:
under the storage invariant and with a non-full directory, insertion
always returns a sortasort that now contains the value, preserving the
capacity, the invariant, uniqueness, and all previously stored values;
the directory either is unchanged (duplicate) or gains exactly the new
value at its sorted position. -/
theorem fmsketch_sortasort_insert_ok (s : sortasort) (v : V)
    (hinv : SInv s) (hcap : s.vals.length < s.capacity) :
    ∃ s', fmsketch_sortasort_insert s v = some s' ∧
      s'.capacity = s.capacity ∧
      s'.vals = (if v ∈ s.vals then s.vals else insertSorted v s.vals) ∧
      SInv s' := by
  obtain ⟨hused, hpos⟩ := hinv
  unfold fmsketch_sortasort_insert
  rw [if_neg (by omega)]
  by_cases hmem : v ∈ s.vals
  · refine ⟨s, ?_, rfl, by simp [hmem], hused, hpos⟩
    unfold sortasort_try_insert
    rw [if_pos hmem]
  · by_cases hfit : usedStorage s + (v.length + 1) ≤ s.storage_sz
    · refine ⟨{ s with vals := insertSorted v s.vals }, ?_, rfl, by simp [hmem], ?_, by simpa using hpos⟩
      · unfold sortasort_try_insert
        rw [if_neg hmem, if_neg (by omega), if_pos hfit]
      · show usedOf (insertSorted v s.vals) ≤ s.storage_sz
        rw [insertSorted_usedOf]
        exact hfit
    · have h1 : sortasort_try_insert s v = .insufficientStorage := by
        unfold sortasort_try_insert
        rw [if_neg hmem, if_neg (by omega), if_neg hfit]
      rw [h1]
      have hfit2 : usedStorage { s with storage_sz := 2 * s.storage_sz + v.length } + (v.length + 1)
          ≤ 2 * s.storage_sz + v.length := by
        show usedOf s.vals + (v.length + 1) ≤ 2 * s.storage_sz + v.length
        have : usedOf s.vals ≤ s.storage_sz := hused
        omega
      have h2 : sortasort_try_insert { s with storage_sz := 2 * s.storage_sz + v.length } v
          = .inserted { s with storage_sz := 2 * s.storage_sz + v.length,
                               vals := insertSorted v s.vals } := by
        unfold sortasort_try_insert
        rw [if_neg (by simpa using hmem), if_neg (by simp; omega), if_pos hfit2]
      simp only [h2]
      refine ⟨_, rfl, rfl, by simp [hmem], ?_, by simp; omega⟩
      show usedOf (insertSorted v s.vals) ≤ 2 * s.storage_sz + v.length
      rw [insertSorted_usedOf]
      have husd : usedOf s.vals ≤ s.storage_sz := hused
      omega

/-! ### Folded insertions -/

/-- Folding a list of values into a sortasort whose directory has room
for all of them always succeeds, preserves capacity, the storage
invariant and uniqueness, and yields exactly the union of the stored
values and the inserted ones. -/
theorem foldlM_insert_ok (vs : List V) (s : sortasort)
    (hinv : SInv s) (hfit : s.vals.length + vs.length ≤ s.capacity) :
    ∃ s', vs.foldlM fmsketch_sortasort_insert s = some s' ∧
      s'.capacity = s.capacity ∧ SInv s' ∧
      (∀ w, w ∈ s'.vals ↔ w ∈ s.vals ∨ w ∈ vs) ∧
      s'.vals.length ≤ s.vals.length + vs.length ∧
      (s.vals.Nodup → s'.vals.Nodup) := by
  induction vs generalizing s with
  | nil =>
    exact ⟨s, rfl, rfl, hinv, by simp, by simp, fun hd => hd⟩
  | cons v vs ih =>
    have hcap : s.vals.length < s.capacity := by
      simp at hfit
      omega
    obtain ⟨s1, he1, hc1, hv1, hi1⟩ := fmsketch_sortasort_insert_ok s v hinv hcap
    have hlen1 : s1.vals.length ≤ s.vals.length + 1 := by
      rw [hv1]
      by_cases hmem : v ∈ s.vals
      · simp [hmem]
      · simp [hmem, insertSorted_length]
    obtain ⟨s2, he2, hc2, hi2, hm2, hl2, hn2⟩ := ih s1 hi1 (by
      rw [hc1]
      simp at hfit
      omega)
    refine ⟨s2, ?_, by rw [hc2, hc1], hi2, ?_, ?_, ?_⟩
    · rw [List.foldlM_cons, he1]
      exact he2
    · intro w
      rw [hm2 w, hv1]
      by_cases hmem : v ∈ s.vals
      · rw [if_pos hmem]
        simp only [List.mem_cons]
        constructor
        · tauto
        · rintro (hw | hw | hw)
          · tauto
          · exact Or.inl (by rw [hw]; exact hmem)
          · tauto
      · rw [if_neg hmem, insertSorted_mem]
        simp only [List.mem_cons]
        tauto
    · simp only [List.length_cons]
      omega
    · intro hnd
      refine hn2 ?_
      rw [hv1]
      by_cases hmem : v ∈ s.vals
      · simpa [hmem] using hnd
      · simp [hmem]
        exact insertSorted_nodup v s.vals hmem hnd

/-- Folding fresh pairwise-distinct values through the SMALL branch of
the transition function: the state stays SMALL, the distinct count is
the sum, and the stored set is the union. -/
theorem insertSeq_small_ok (h : V → Nat) (vs : List V) (s : sortasort)
    (hinv : SInv s) (hcap : s.capacity = MINVALS) (hnd : s.vals.Nodup)
    (hfresh : ∀ v ∈ vs, v ∉ s.vals) (hvnd : vs.Nodup)
    (hfit : s.vals.length + vs.length ≤ MINVALS) :
    ∃ s', insertSeq h (.small s) vs = some (.small s') ∧
      s'.capacity = MINVALS ∧ SInv s' ∧ s'.vals.Nodup ∧
      s'.vals.length = s.vals.length + vs.length ∧
      (∀ w, w ∈ s'.vals ↔ w ∈ s.vals ∨ w ∈ vs) := by
  induction vs generalizing s with
  | nil =>
    exact ⟨s, rfl, hcap, hinv, hnd, by simp, by simp⟩
  | cons v vs ih =>
    have hlt : s.vals.length < MINVALS := by
      simp at hfit
      omega
    have hvmem : v ∉ s.vals := hfresh v (List.mem_cons_self v vs)
    obtain ⟨s1, he1, hc1, hv1, hi1⟩ :=
      fmsketch_sortasort_insert_ok s v hinv (by omega)
    rw [if_neg hvmem] at hv1
    have hlen1 : s1.vals.length = s.vals.length + 1 := by
      rw [hv1, insertSorted_length]
    have hnd1 : s1.vals.Nodup := by
      rw [hv1]
      exact insertSorted_nodup v s.vals hvmem hnd
    rcases List.nodup_cons.mp hvnd with ⟨hvvs, hvsnd⟩
    obtain ⟨s2, he2, hc2, hi2, hn2, hl2, hm2⟩ := ih s1 hi1 (by rw [hc1]; exact hcap) hnd1
      (by
        intro w hw hmem
        rw [hv1] at hmem
        rcases (insertSorted_mem v w s.vals).mp hmem with hwv | hws
        · exact hvvs (hwv ▸ hw)
        · exact hfresh w (List.mem_cons_of_mem v hw) hws)
      hvsnd
      (by
        simp at hfit
        omega)
    refine ⟨s2, ?_, hc2, hi2, hn2, by simp only [List.length_cons]; omega, ?_⟩
    · have hstep : fmsketch_trans h (.small s) (some v) = some (.small s1) := by
        simp only [fmsketch_trans]
        rw [if_pos hlt, he1]
        rfl
      show insertSeq h (.small s) (v :: vs) = some (.small s2)
      unfold insertSeq
      rw [List.foldlM_cons]
      simp only [hstep]
      exact he2
    · intro w
      rw [hm2 w, hv1, insertSorted_mem]
      simp only [List.mem_cons]
      tauto

/-! ### Bit-level lemmas -/

theorem roAux_spec (fuel : Nat) : ∀ d, d ≠ 0 → d ≤ fuel →
    d.testBit (roAux fuel d) = true ∧ ∀ j < roAux fuel d, d.testBit j = false := by
  induction fuel with
  | zero =>
    intro d hd hle
    omega
  | succ fuel ih =>
    intro d hd hle
    unfold roAux
    by_cases hpar : d % 2 = 1
    · rw [if_pos hpar]
      constructor
      · simp [Nat.testBit_zero, hpar]
      · intro j hj
        omega
    · rw [if_neg hpar]
      have hd2 : d / 2 ≠ 0 := by omega
      have hle2 : d / 2 ≤ fuel := by omega
      obtain ⟨hset, hlow⟩ := ih (d / 2) hd2 hle2
      refine ⟨?_, ?_⟩
      · rw [Nat.testBit_add_one]
        exact hset
      · intro j hj
        match j with
        | 0 => simp [Nat.testBit_zero, hpar]
        | j + 1 =>
          rw [Nat.testBit_add_one]
          exact hlow j (by omega)

/-- rightmost_one finds a set bit: the bit at the returned position is
set, and every lower position is unset. -/
theorem rightmost_one_spec (d : Nat) (hd : d ≠ 0) :
    d.testBit (rightmost_one d) = true ∧
      ∀ j < rightmost_one d, d.testBit j = false :=
  roAux_spec d d hd (Nat.le_refl d)

/-- A 128-bit nonzero digest has its rightmost set bit below W. -/
theorem rightmost_one_lt (d : Nat) (hd : d ≠ 0) (hw : d < 2 ^ MD5_HASHLEN_BITS) :
    rightmost_one d < MD5_HASHLEN_BITS := by
  obtain ⟨hset, _⟩ := rightmost_one_spec d hd
  have h1 : 2 ^ rightmost_one d ≤ d := Nat.testBit_implies_ge hset
  have h2 : 2 ^ rightmost_one d < 2 ^ MD5_HASHLEN_BITS := lt_of_le_of_lt h1 hw
  exact (Nat.pow_lt_pow_iff_right (by decide)).mp h2

theorem loAux_le (bm : Nat) : ∀ k, loAux bm k ≤ k
  | 0 => Nat.le_refl 0
  | k + 1 => by
    unfold loAux
    by_cases hb : bm.testBit k
    · simp only [hb, if_true]
      exact Nat.succ_le_succ (loAux_le bm k)
    · simp only [hb, if_false]
      exact Nat.zero_le _

/-- Every position within the run counted by loAux is a set bit. -/
theorem loAux_run (bm : Nat) : ∀ k, ∀ j < loAux bm k, bm.testBit (k - 1 - j) = true := by
  intro k
  induction k with
  | zero => intro j hj; simp [loAux] at hj
  | succ k ih =>
    intro j hj
    unfold loAux at hj
    by_cases hb : bm.testBit k
    · simp only [hb, if_true] at hj
      match j with
      | 0 => simpa using hb
      | j + 1 =>
        have : k + 1 - 1 - (j + 1) = k - 1 - j := by omega
        rw [this]
        exact ih j (by omega)
    · rw [if_neg hb] at hj
      omega

/-- The bit right after the run counted by loAux is unset (when the run
does not cover the whole width). -/
theorem loAux_stop (bm : Nat) : ∀ k, loAux bm k < k →
    bm.testBit (k - 1 - loAux bm k) = false := by
  intro k
  induction k with
  | zero => intro hx; omega
  | succ k ih =>
    intro hx
    unfold loAux at hx ⊢
    by_cases hb : bm.testBit k
    · simp only [hb, if_true] at hx ⊢
      have hk : loAux bm k < k := by omega
      have : k + 1 - 1 - (loAux bm k + 1) = k - 1 - loAux bm k := by omega
      rw [this]
      exact ih hk
    · rw [if_neg hb] at hx ⊢
      simpa using Bool.eq_false_iff.mpr hb

/-- loAux is monotone with respect to bitwise inclusion. -/
theorem loAux_mono (bm bm' : Nat)
    (hsub : ∀ j, bm.testBit j = true → bm'.testBit j = true) :
    ∀ k, loAux bm k ≤ loAux bm' k := by
  intro k
  induction k with
  | zero => exact Nat.le_refl 0
  | succ k ih =>
    unfold loAux
    by_cases hb : bm.testBit k
    · rw [if_pos hb, if_pos (hsub k hb)]
      exact Nat.succ_le_succ ih
    · rw [if_neg hb]
      exact Nat.zero_le _

theorem leadingOnes_mono (bm bm' : Nat)
    (hsub : ∀ j, bm.testBit j = true → bm'.testBit j = true) :
    leadingOnes bm ≤ leadingOnes bm' :=
  loAux_mono bm bm' hsub MD5_HASHLEN_BITS

/-- The leading-ones run length as the spec words it: the greatest k
such that the k bits counted from the most-significant end are all
set. -/
def specLeadingOnes (bm : Nat) : Nat :=
  Nat.findGreatest (fun k => ∀ j < k, bm.testBit (MD5_HASHLEN_BITS - 1 - j) = true)
    MD5_HASHLEN_BITS

/-- The scan from the most-significant end computes exactly the
greatest all-ones prefix length. -/
theorem leadingOnes_eq_spec (bm : Nat) : leadingOnes bm = specLeadingOnes bm := by
  have hle : leadingOnes bm ≤ MD5_HASHLEN_BITS := loAux_le bm MD5_HASHLEN_BITS
  refine (Nat.findGreatest_eq_iff.mpr ⟨hle, ?_, ?_⟩).symm
  · intro _
    intro j hj
    exact loAux_run bm MD5_HASHLEN_BITS j hj
  · intro n hn hnle hP
    have hlt : leadingOnes bm < MD5_HASHLEN_BITS := lt_of_lt_of_le hn hnle
    have hstop : bm.testBit (MD5_HASHLEN_BITS - 1 - leadingOnes bm) = false :=
      loAux_stop bm MD5_HASHLEN_BITS hlt
    have hset : bm.testBit (MD5_HASHLEN_BITS - 1 - leadingOnes bm) = true :=
      hP (leadingOnes bm) hn
    rw [hstop] at hset
    exact Bool.false_ne_true hset

/-! ### Sketch update and estimator lemmas -/

theorem getD_set_or (sk : List Nat) (idx m i : Nat) :
    (sk.set idx m).getD i 0 =
      if i = idx ∧ idx < sk.length then m else sk.getD i 0 := by
  by_cases hlen : idx < sk.length
  · by_cases hi : i = idx
    · subst hi
      rw [if_pos ⟨rfl, hlen⟩]
      simp [List.getD_eq_getElem?_getD, List.getElem?_set_self hlen]
    · rw [if_neg (fun hc => hi hc.1)]
      simp [List.getD_eq_getElem?_getD, List.getElem?_set_ne (fun hc => hi hc.symm)]
  · rw [if_neg (fun hc => hlen hc.2), List.set_eq_of_length_le (by omega)]

/-- A sketch insertion never clears a bit of any bitmap. -/
theorem fmsketch_trans_c_sub (h : V → Nat) (sk : List Nat) (v : V) (i j : Nat)
    (hb : (sk.getD i 0).testBit j = true) :
    ((fmsketch_trans_c h sk v).getD i 0).testBit j = true := by
  unfold fmsketch_trans_c
  by_cases hd : h v = 0
  · rw [if_pos hd]
    exact hb
  · rw [if_neg hd, getD_set_or]
    by_cases hc : i = (h v / 2 ^ 64) % NMAP ∧ (h v / 2 ^ 64) % NMAP < sk.length
    · rw [if_pos hc]
      rcases hc with ⟨hi, _⟩
      subst hi
      rw [Nat.testBit_or, hb, Bool.true_or]
    · rw [if_neg hc]
      exact hb

theorem sum_map_le (l : List Nat) (f g : Nat → Nat) (hfg : ∀ i ∈ l, f i ≤ g i) :
    (l.map f).sum ≤ (l.map g).sum := by
  induction l with
  | nil => simp
  | cons x xs ih =>
    simp only [List.map_cons, List.sum_cons]
    have h1 := hfg x (List.mem_cons_self x xs)
    have h2 := ih (fun i hi => hfg i (List.mem_cons_of_mem x hi))
    omega

/-- The summed leading-ones statistic never decreases under a sketch
insertion. -/
theorem sketchS_trans_c_le (h : V → Nat) (sk : List Nat) (v : V) :
    sketchS sk ≤ sketchS (fmsketch_trans_c h sk v) := by
  unfold sketchS
  apply sum_map_le
  intro i _
  exact leadingOnes_mono _ _ (fun j hj => fmsketch_trans_c_sub h sk v i j hj)

theorem phi_pos : (0 : ℝ) < phi := by
  unfold phi
  norm_num

/-- The estimator is monotone in the summed statistic. -/
theorem fmsketch_count_distinct_c_mono (sk sk' : List Nat)
    (hS : sketchS sk ≤ sketchS sk') :
    fmsketch_count_distinct_c sk ≤ fmsketch_count_distinct_c sk' := by
  unfold fmsketch_count_distinct_c
  apply Nat.ceil_mono
  have hc : (0 : ℝ) ≤ (NMAP : ℝ) / phi :=
    le_of_lt (div_pos (by norm_num [NMAP]) phi_pos)
  apply mul_le_mul_of_nonneg_left _ hc
  apply (Real.rpow_le_rpow_left_iff (by norm_num : (1 : ℝ) < 2)).mpr
  apply (div_le_div_iff_of_pos_right (by norm_num [NMAP] : (0 : ℝ) < (NMAP : ℝ))).mpr
  exact_mod_cast hS

/-- A digest function that always hashes to zero makes a sketch
insertion a no-op. -/
theorem fmsketch_trans_c_of_zero (h : V → Nat) (hz : ∀ v, h v = 0)
    (sk : List Nat) (v : V) : fmsketch_trans_c h sk v = sk := by
  unfold fmsketch_trans_c
  rw [if_pos (hz v)]

theorem foldl_trans_c_of_zero (h : V → Nat) (hz : ∀ v, h v = 0)
    (vs : List V) (sk : List Nat) :
    vs.foldl (fmsketch_trans_c h) sk = sk := by
  induction vs generalizing sk with
  | nil => rfl
  | cons v vs ih =>
    rw [List.foldl_cons, fmsketch_trans_c_of_zero h hz, ih]

theorem leadingOnes_zero : leadingOnes 0 = 0 := by
  have : ∀ k, loAux 0 k = 0 := by
    intro k
    induction k with
    | zero => rfl
    | succ k ih =>
      unfold loAux
      simp [Nat.zero_testBit]
  exact this MD5_HASHLEN_BITS

/-- Any successful sortasort insertion leaves the directory unchanged
or equal to the sorted insertion of the new value. -/
theorem fmsketch_sortasort_insert_vals (s : sortasort) (v : V) (s1 : sortasort)
    (he : fmsketch_sortasort_insert s v = some s1) :
    s1.vals = s.vals ∨ s1.vals = insertSorted v s.vals := by
  unfold fmsketch_sortasort_insert at he
  by_cases hc : s.capacity ≤ s.vals.length
  · rw [if_pos hc] at he
    cases he
  · rw [if_neg hc] at he
    unfold sortasort_try_insert at he
    by_cases hmem : v ∈ s.vals
    · rw [if_pos hmem] at he
      simp only [Option.some_inj] at he
      left
      rw [← he]
    · rw [if_neg hmem, if_neg hc] at he
      by_cases hfit : usedStorage s + (v.length + 1) ≤ s.storage_sz
      · rw [if_pos hfit] at he
        simp only [Option.some_inj] at he
        right
        rw [← he]
      · rw [if_neg hfit] at he
        simp only at he
        by_cases hmem2 : v ∈ s.vals
        · exact absurd hmem2 hmem
        · rw [if_neg hmem2] at he
          by_cases hc2 : s.capacity ≤ s.vals.length
          · exact absurd hc2 hc
          · rw [if_neg hc2] at he
            by_cases hfit2 : usedStorage { s with storage_sz := 2 * s.storage_sz + v.length }
                + (v.length + 1) ≤ 2 * s.storage_sz + v.length
            · rw [if_pos hfit2] at he
              simp only [Option.some_inj] at he
              right
              rw [← he]
            · rw [if_neg hfit2] at he
              cases he

/-- A successful sortasort insertion never shrinks the directory. -/
theorem fmsketch_sortasort_insert_len (s : sortasort) (v : V) (s1 : sortasort)
    (he : fmsketch_sortasort_insert s v = some s1) :
    s.vals.length ≤ s1.vals.length := by
  rcases fmsketch_sortasort_insert_vals s v s1 he with hv | hv
  · rw [hv]
  · rw [hv, insertSorted_length]
    omega

theorem sketchS_fm_new : sketchS fm_new_sketch = 0 := by
  unfold sketchS
  apply List.sum_eq_zero
  intro x hx
  rcases List.mem_map.mp hx with ⟨i, _, hix⟩
  rw [← hix]
  have : (fm_new_sketch.getD i 0) = 0 := by
    unfold fm_new_sketch
    rw [List.getD_eq_getElem?_getD, List.getElem?_replicate]
    by_cases hi : i < NMAP <;> simp [hi]
  rw [this, leadingOnes_zero]

/-- The estimator value of an all-zero sketch: ceil(256 / 0.77351). -/
theorem count_c_fm_new : fmsketch_count_distinct_c fm_new_sketch = 331 := by
  unfold fmsketch_count_distinct_c
  rw [sketchS_fm_new]
  rw [Nat.cast_zero, zero_div, Real.rpow_zero, mul_one]
  rw [Nat.ceil_eq_iff (by norm_num)]
  unfold phi NMAP
  constructor
  · rw [lt_div_iff₀ (by norm_num)]
    norm_num
  · rw [div_le_iff₀ (by norm_num)]
    norm_num

/-! ### Concrete value families used by witnesses -/

/-- A two-byte encoding of a small number, used to build concrete
families of pairwise-distinct values. -/
def encVal (n : Nat) : V := [n % 256, n / 256]

/-- MINVALS pairwise-distinct concrete values. -/
def bigVals : List V := (List.range MINVALS).map encVal

theorem encVal_injective : Function.Injective encVal := by
  intro a b hab
  simp only [encVal, List.cons.injEq, and_true] at hab
  obtain ⟨h1, h2⟩ := hab
  omega

theorem bigVals_length : bigVals.length = MINVALS := by
  simp [bigVals]

theorem bigVals_nodup : bigVals.Nodup :=
  (List.nodup_range MINVALS).map encVal_injective

theorem not_mem_bigVals (w : V) (hw : w.length ≠ 2) : w ∉ bigVals := by
  intro hmem
  rcases List.mem_map.mp hmem with ⟨n, _, hn⟩
  rw [← hn] at hw
  simp [encVal] at hw

theorem encVal_mem_bigVals (n : Nat) (hn : n < MINVALS) : encVal n ∈ bigVals :=
  List.mem_map_of_mem encVal (List.mem_range.mpr hn)

/-- Folding a nonempty list of pairwise-distinct values within the
exact threshold, starting from the empty blob, yields a SMALL state
holding exactly those values. -/
theorem insertSeq_from_empty (h : V → Nat) (vs : List V)
    (hnd : vs.Nodup) (hlen : vs.length ≤ MINVALS) (hne : vs ≠ []) :
    ∃ s : sortasort, insertSeq h .empty vs = some (.small s) ∧
      s.vals.length = vs.length ∧ s.capacity = MINVALS ∧ SInv s ∧
      s.vals.Nodup ∧ (∀ w, w ∈ s.vals ↔ w ∈ vs) := by
  match vs with
  | [] => exact absurd rfl hne
  | v0 :: rest =>
    have hinv0 : SInv sortasort_init := by
      constructor
      · show usedOf [] ≤ SORTASORT_INITIAL_STORAGE
        simp [usedOf]
      · show 1 ≤ SORTASORT_INITIAL_STORAGE
        unfold SORTASORT_INITIAL_STORAGE MINVALS
        omega
    have hcap0 : sortasort_init.vals.length < sortasort_init.capacity := by
      show ([] : List V).length < MINVALS
      unfold MINVALS
      simp
    obtain ⟨s0, he0, hc0, hv0, hi0⟩ :=
      fmsketch_sortasort_insert_ok sortasort_init v0 hinv0 hcap0
    have hv0' : s0.vals = [v0] := by
      rw [hv0]
      rfl
    rcases List.nodup_cons.mp hnd with ⟨h0rest, hrestnd⟩
    obtain ⟨s, he, hc, hi, hn, hl, hm⟩ := insertSeq_small_ok h rest s0 hi0
      (by rw [hc0]; rfl)
      (by rw [hv0']; simp)
      (by
        intro w hw hmem
        rw [hv0'] at hmem
        simp at hmem
        exact h0rest (hmem ▸ hw))
      hrestnd
      (by
        rw [hv0']
        simp only [List.length_cons] at hlen
        simp
        omega)
    refine ⟨s, ?_, ?_, hc, hi, hn, ?_⟩
    · have hstep : fmsketch_trans h .empty (some v0) = some (.small s0) := by
        simp only [fmsketch_trans]
        rw [he0]
        rfl
      show insertSeq h .empty (v0 :: rest) = some (.small s)
      unfold insertSeq
      rw [List.foldlM_cons]
      simp only [hstep]
      exact he
    · rw [hl, hv0']
      simp only [List.length_cons, List.length_nil]
      omega
    · intro w
      rw [hm w, hv0']
      simp

/-! ### Claim theorems -/

/-- C1: the claim that the merge of two equal-sized BIG states ORs all
NMAP * W bits fails on the code.  big_or strides eight bytes at a time
over the blob data, so a bitmap byte at an offset that is not a
multiple of eight is taken from the uninitialized output buffer.  Here
the two blobs carry a BIG tag (first data byte 1), an inner header, and
bitmap areas of all-ones bytes and all-zeroes bytes respectively; with
an all-zero palloc buffer the result keeps 0 at data byte 9 (the second
bitmap byte) although the OR of the corresponding input bytes is 255. -/
theorem big_or_stride_bug :
    (big_or (List.replicate 4104 0)
        ([1, 0, 0, 0, 0, 4, 0, 16] ++ List.replicate 4096 255)
        ([1, 0, 0, 0, 0, 4, 0, 16] ++ List.replicate 4096 0)).map
      (fun out => out.getD 9 0) = some 0 ∧
    (([1, 0, 0, 0, 0, 4, 0, 16] ++ List.replicate 4096 255 : List Nat).getD 9 0) |||
      (([1, 0, 0, 0, 0, 4, 0, 16] ++ List.replicate 4096 0 : List Nat).getD 9 0) = 255 ∧
    (0 : Nat) ≠ 255 := by
  refine ⟨?_, by decide, by decide⟩
  have hlen : ([1, 0, 0, 0, 0, 4, 0, 16] ++ List.replicate 4096 255 : List Nat).length =
      ([1, 0, 0, 0, 0, 4, 0, 16] ++ List.replicate 4096 0 : List Nat).length := by
    simp only [List.length_append, List.length_replicate, List.length_cons,
      List.length_nil]
  unfold big_or
  rw [if_pos hlen, Option.map_some']
  rw [List.getD_eq_getElem?_getD, List.getElem?_map,
    List.getElem?_range (by
      simp only [List.length_append, List.length_replicate, List.length_cons,
        List.length_nil]
      omega)]
  decide

/-- C9 counterexample: on a null input the transition function returns
SQL NULL, not the unchanged input state. -/
theorem trans_null_cex :
    fmsketch_trans (fun _ => 0) .empty none = none ∧
      fmsketch_trans (fun _ => 0) .empty none ≠ some .empty := by
  exact ⟨rfl, by decide⟩

/-- C9 amended: a null value never reaches any of the containers (the
function mutates nothing), but the function returns SQL NULL instead of
the input state blob. -/
theorem trans_null_returns_sql_null (h : V → Nat) (st : FMState) :
    fmsketch_trans h st none = none := rfl

set_option maxRecDepth 4000 in
/-- C7: the claim that a Sketch-mode state stays in Sketch mode under
every merge fails on the code at the BIG with BIG branch.  big_or
writes only byte 0 of the 4-byte status field of its freshly palloc'd
output blob (the same stride-8 slip as in big_or_stride_bug), so with
any nonzero uninitialized contents jstat in status bytes 1 to 3 the
decoded status word is 1 + 256 * jstat, which is neither SMALL (0) nor
BIG (1): the merged blob is not a Sketch-mode transval, and subsequent
operations fail the status sanity checks of fm.c.  With jstat = 1 the
status word is 257 and the merge yields no well-formed state; only
when the uninitialized bytes happen to be zero does the merge of two
BIG sketches again decode to a BIG state. -/
theorem merge_big_big_tag_corrupt :
    bigOrStatusWord 1 = 257 ∧ (257 : Nat) ≠ 0 ∧ (257 : Nat) ≠ 1 ∧
    fmsketch_merge (fun _ => 1) (fun a _ => a) 1 (.big fm_new_sketch)
      (.big fm_new_sketch) = none ∧
    bigOrStatusWord 0 = 1 ∧
    fmsketch_merge (fun _ => 1) (fun a _ => a) 0 (.big fm_new_sketch)
      (.big fm_new_sketch) = some (.big fm_new_sketch) := by
  refine ⟨by decide, by decide, by decide, by decide, by decide, by decide⟩

set_option maxRecDepth 10000 in
/-- C6 counterexample: with digest 1 the rightmost set bit is r = 0,
so the claim as stated would set the bit at position W - 1 - r = 127
counted from the most-significant end, which is testBit 0 of the
bitmap.  The code instead sets the bit at position r = 0 from the
most-significant end (testBit 127): after the insertion, bitmap 0
equals 2 ^ 127, whose bit 0 is clear. -/
theorem trans_c_position_cex :
    fmsketch_trans_c (fun _ => 1) fm_new_sketch [0] =
      fm_new_sketch.set 0 (2 ^ 127) ∧
    ((fmsketch_trans_c (fun _ => 1) fm_new_sketch [0]).getD 0 0).testBit 127 = true ∧
    ((fmsketch_trans_c (fun _ => 1) fm_new_sketch [0]).getD 0 0).testBit 0 = false := by
  refine ⟨by decide, by decide, by decide⟩

/-- C6 amended: for a nonzero 128-bit digest d, the sketch insertion
selects the bitmap indexed by the 64 high-order bits of d mod NMAP,
computes r as the 0-based position of the least-significant set bit of
d (the returned position carries a set bit and all lower positions are
clear, and r is below W), and ORs in the bit at position W - 1 - r
counted from the least-significant end of the selected bitmap, that is,
at position r counted from the most-significant end; the insertion is
idempotent. -/
theorem trans_c_bit_position_idempotent (h : V → Nat) (sk : List Nat) (v : V)
    (hne : h v ≠ 0) (hw : h v < 2 ^ MD5_HASHLEN_BITS) :
    fmsketch_trans_c h sk v =
      sk.set ((h v / 2 ^ 64) % NMAP)
        ((sk.getD ((h v / 2 ^ 64) % NMAP) 0) |||
          2 ^ (MD5_HASHLEN_BITS - 1 - rightmost_one (h v))) ∧
    (h v).testBit (rightmost_one (h v)) = true ∧
    (∀ j < rightmost_one (h v), (h v).testBit j = false) ∧
    rightmost_one (h v) < MD5_HASHLEN_BITS ∧
    fmsketch_trans_c h (fmsketch_trans_c h sk v) v = fmsketch_trans_c h sk v := by
  obtain ⟨hset, hlow⟩ := rightmost_one_spec (h v) hne
  refine ⟨?_, hset, hlow, rightmost_one_lt (h v) hne hw, ?_⟩
  · unfold fmsketch_trans_c
    rw [if_neg hne]
  · unfold fmsketch_trans_c
    rw [if_neg hne, if_neg hne]
    by_cases hlen : (h v / 2 ^ 64) % NMAP < sk.length
    · rw [getD_set_or, if_pos ⟨rfl, hlen⟩]
      have hor : (sk.getD ((h v / 2 ^ 64) % NMAP) 0 |||
            2 ^ (MD5_HASHLEN_BITS - 1 - rightmost_one (h v))) |||
            2 ^ (MD5_HASHLEN_BITS - 1 - rightmost_one (h v)) =
          sk.getD ((h v / 2 ^ 64) % NMAP) 0 |||
            2 ^ (MD5_HASHLEN_BITS - 1 - rightmost_one (h v)) := by
        rw [Nat.or_assoc, Nat.or_self]
      rw [hor, List.set_set]
    · have hno : ∀ m : Nat, sk.set ((h v / 2 ^ 64) % NMAP) m = sk :=
        fun m => List.set_eq_of_length_le (le_of_not_lt hlen)
      simp only [hno]

/-- C6 witness: the amended statement holds at the concrete digest
function that always returns 1, on a fresh sketch. -/
theorem trans_c_bit_position_idempotent_witness :
    ((fun _ : V => 1) [0] ≠ 0) ∧ ((fun _ : V => 1) [0] < 2 ^ MD5_HASHLEN_BITS) ∧
    (fmsketch_trans_c (fun _ : V => 1) fm_new_sketch [0] =
      fm_new_sketch.set (((fun _ : V => 1) [0] / 2 ^ 64) % NMAP)
        ((fm_new_sketch.getD (((fun _ : V => 1) [0] / 2 ^ 64) % NMAP) 0) |||
          2 ^ (MD5_HASHLEN_BITS - 1 - rightmost_one ((fun _ : V => 1) [0]))) ∧
    ((fun _ : V => 1) [0]).testBit (rightmost_one ((fun _ : V => 1) [0])) = true ∧
    (∀ j < rightmost_one ((fun _ : V => 1) [0]),
      ((fun _ : V => 1) [0]).testBit j = false) ∧
    rightmost_one ((fun _ : V => 1) [0]) < MD5_HASHLEN_BITS ∧
    fmsketch_trans_c (fun _ : V => 1)
        (fmsketch_trans_c (fun _ : V => 1) fm_new_sketch [0]) [0] =
      fmsketch_trans_c (fun _ : V => 1) fm_new_sketch [0]) :=
  ⟨by decide, by decide,
    trans_c_bit_position_idempotent (fun _ : V => 1) fm_new_sketch [0]
      (by decide) (by decide)⟩

/-- C8: when the first try reports insufficient storage (and the
directory is not full), the wrapper allocates a storage area of exactly
2 * storage_sz + strlen(v) bytes, keeps the directory and stored
values, retries, and the single retry succeeds with the value now
stored at its sorted position among all previously stored values. -/
theorem sortasort_grow_retry (s : sortasort) (v : V)
    (hcap : s.vals.length < s.capacity) (hinv : SInv s)
    (hfail : sortasort_try_insert s v = .insufficientStorage) :
    fmsketch_sortasort_insert s v =
      some { capacity := s.capacity, storage_sz := 2 * s.storage_sz + v.length,
             vals := insertSorted v s.vals } ∧
    v ∈ insertSorted v s.vals ∧
    (∀ w ∈ s.vals, w ∈ insertSorted v s.vals) := by
  obtain ⟨hused, hpos⟩ := hinv
  have hmem : v ∉ s.vals := by
    intro hm
    unfold sortasort_try_insert at hfail
    rw [if_pos hm] at hfail
    cases hfail
  refine ⟨?_, (insertSorted_mem v v s.vals).mpr (Or.inl rfl),
    fun w hw => (insertSorted_mem v w s.vals).mpr (Or.inr hw)⟩
  unfold fmsketch_sortasort_insert
  rw [if_neg (by omega), hfail]
  have hfit2 : usedStorage { s with storage_sz := 2 * s.storage_sz + v.length }
      + (v.length + 1) ≤ 2 * s.storage_sz + v.length := by
    show usedOf s.vals + (v.length + 1) ≤ 2 * s.storage_sz + v.length
    have : usedOf s.vals ≤ s.storage_sz := hused
    omega
  have h2 : sortasort_try_insert { s with storage_sz := 2 * s.storage_sz + v.length } v
      = .inserted { s with storage_sz := 2 * s.storage_sz + v.length,
                           vals := insertSorted v s.vals } := by
    unfold sortasort_try_insert
    rw [if_neg (by simpa using hmem), if_neg (by simp; omega), if_pos hfit2]
  simp only [h2]

/-- C8 witness: a concrete sortasort with two free directory slots and
a full storage area grows once and stores the new value. -/
theorem sortasort_grow_retry_witness :
    ((⟨3, 2, [[1]]⟩ : sortasort).vals.length < (⟨3, 2, [[1]]⟩ : sortasort).capacity) ∧
    SInv ⟨3, 2, [[1]]⟩ ∧
    sortasort_try_insert ⟨3, 2, [[1]]⟩ [5, 6] = .insufficientStorage ∧
    (fmsketch_sortasort_insert ⟨3, 2, [[1]]⟩ [5, 6] =
      some { capacity := (⟨3, 2, [[1]]⟩ : sortasort).capacity,
             storage_sz := 2 * (⟨3, 2, [[1]]⟩ : sortasort).storage_sz + ([5, 6] : V).length,
             vals := insertSorted [5, 6] (⟨3, 2, [[1]]⟩ : sortasort).vals } ∧
    ([5, 6] : V) ∈ insertSorted [5, 6] (⟨3, 2, [[1]]⟩ : sortasort).vals ∧
    (∀ w ∈ (⟨3, 2, [[1]]⟩ : sortasort).vals, w ∈ insertSorted [5, 6] (⟨3, 2, [[1]]⟩ : sortasort).vals)) :=
  ⟨by decide, by decide, by decide,
    sortasort_grow_retry ⟨3, 2, [[1]]⟩ [5, 6] (by decide) (by decide) (by decide)⟩

/-- C10: when the sortasort holds exactly MINVALS values, the very next
non-null insertion unconditionally transitions to BIG mode, replaying
the stored values into a fresh sketch and then inserting the new value,
with no test of whether the new value is already stored. -/
theorem trans_full_small_transitions (h : V → Nat) (s : sortasort) (v : V)
    (hfull : s.vals.length = MINVALS) :
    fmsketch_trans h (.small s) (some v) =
      some (.big (fmsketch_trans_c h
        (s.vals.foldl (fmsketch_trans_c h) fm_new_sketch) v)) := by
  simp only [fmsketch_trans]
  rw [if_neg (by omega), if_pos hfull]

/-- C10 witness: a full sortasort of MINVALS values transitions even
though the inserted value encVal 0 is already one of the stored
values. -/
theorem trans_full_small_transitions_witness :
    (⟨MINVALS, SORTASORT_INITIAL_STORAGE, bigVals⟩ : sortasort).vals.length = MINVALS ∧
    encVal 0 ∈ (⟨MINVALS, SORTASORT_INITIAL_STORAGE, bigVals⟩ : sortasort).vals ∧
    fmsketch_trans (fun _ => 1) (.small ⟨MINVALS, SORTASORT_INITIAL_STORAGE, bigVals⟩)
        (some (encVal 0)) =
      some (.big (fmsketch_trans_c (fun _ => 1)
        ((⟨MINVALS, SORTASORT_INITIAL_STORAGE, bigVals⟩ : sortasort).vals.foldl
          (fmsketch_trans_c (fun _ => 1)) fm_new_sketch) (encVal 0))) := by
  have hproj : (⟨MINVALS, SORTASORT_INITIAL_STORAGE, bigVals⟩ : sortasort).vals = bigVals := by
    simp
  refine ⟨?_, ?_, ?_⟩
  · rw [hproj]
    exact bigVals_length
  · rw [hproj]
    exact encVal_mem_bigVals 0 (by decide)
  · exact trans_full_small_transitions (fun _ => 1)
      ⟨MINVALS, SORTASORT_INITIAL_STORAGE, bigVals⟩ (encVal 0)
      (by rw [hproj]; exact bigVals_length)

/-- C4: for every BIG state the final function returns
ceil((NMAP / phi) * 2 ^ (S / NMAP)) where S is the sum over the NMAP
bitmaps of the number of consecutive set bits from the most-significant
end before the first unset bit, with NMAP = 256 and phi = 0.77351; and
the never-inserted empty state returns 0. -/
theorem count_distinct_formula (sk : List Nat) :
    fmsketch_count_distinct (.big sk) =
      Nat.ceil (((NMAP : ℝ) / phi) * (2 : ℝ) ^
        ((((List.range NMAP).map (fun i => specLeadingOnes (sk.getD i 0))).sum : ℝ) /
          (NMAP : ℝ))) ∧
    fmsketch_count_distinct .empty = 0 ∧
    NMAP = 256 ∧ phi = 0.77351 := by
  refine ⟨?_, rfl, rfl, rfl⟩
  show fmsketch_count_distinct_c sk = _
  unfold fmsketch_count_distinct_c
  have hS : sketchS sk =
      ((List.range NMAP).map (fun i => specLeadingOnes (sk.getD i 0))).sum := by
    unfold sketchS
    congr 1
    exact List.map_congr_left (fun i _ => leadingOnes_eq_spec (sk.getD i 0))
  rw [hS]

/-- C2: folding MINVALS pairwise-distinct non-null values into the
empty state leaves a SMALL state whose distinct count is MINVALS;
folding one further distinct value yields a BIG state obtained by
replaying every stored value into a fresh all-zero sketch and then
inserting the new value into that sketch. -/
theorem exact_to_sketch_transition (h : V → Nat) (vs : List V) (v : V)
    (hlen : vs.length = MINVALS) (hnd : vs.Nodup) (_hv : v ∉ vs) :
    ∃ s : sortasort,
      insertSeq h .empty vs = some (.small s) ∧
      s.vals.length = MINVALS ∧
      fmsketch_count_distinct (.small s) = MINVALS ∧
      (∀ w, w ∈ s.vals ↔ w ∈ vs) ∧
      insertSeq h .empty (vs ++ [v]) =
        some (.big (fmsketch_trans_c h
          (s.vals.foldl (fmsketch_trans_c h) fm_new_sketch) v)) := by
  have hne : vs ≠ [] := by
    intro h0
    rw [h0] at hlen
    simp [MINVALS] at hlen
  obtain ⟨s, he, hlens, hcap, hinv, hnodup, hmem⟩ :=
    insertSeq_from_empty h vs hnd (le_of_eq hlen) hne
  have hlenMIN : s.vals.length = MINVALS := by rw [hlens, hlen]
  have hstep : fmsketch_trans h (.small s) (some v) =
      some (.big (fmsketch_trans_c h
        (s.vals.foldl (fmsketch_trans_c h) fm_new_sketch) v)) := by
    simp only [fmsketch_trans]
    rw [if_neg (by omega), if_pos hlenMIN]
  refine ⟨s, he, hlenMIN, hlenMIN, hmem, ?_⟩
  unfold insertSeq at he ⊢
  rw [List.foldlM_append, he]
  show fmsketch_trans h (.small s) (some v) >>=
    (fun st => [].foldlM (fun st v => fmsketch_trans h st (some v)) st) = _
  rw [hstep]
  rfl

/-- C2 witness: the family of MINVALS two-byte values followed by a
fresh three-byte value, with the constant digest 1. -/
theorem exact_to_sketch_transition_witness :
    bigVals.length = MINVALS ∧ bigVals.Nodup ∧ ([7, 7, 7] : V) ∉ bigVals ∧
    (∃ s : sortasort,
      insertSeq (fun _ => 1) .empty bigVals = some (.small s) ∧
      s.vals.length = MINVALS ∧
      fmsketch_count_distinct (.small s) = MINVALS ∧
      (∀ w, w ∈ s.vals ↔ w ∈ bigVals) ∧
      insertSeq (fun _ => 1) .empty (bigVals ++ [[7, 7, 7]]) =
        some (.big (fmsketch_trans_c (fun _ => 1)
          (s.vals.foldl (fmsketch_trans_c (fun _ => 1)) fm_new_sketch) [7, 7, 7]))) :=
  ⟨bigVals_length, bigVals_nodup, not_mem_bigVals _ (by decide),
    exact_to_sketch_transition (fun _ => 1) bigVals [7, 7, 7] bigVals_length
      bigVals_nodup (not_mem_bigVals _ (by decide))⟩

/-- C5: for two SMALL states under the storage invariant with unique
directories, the merge inserts the smaller directory into the larger
one when their combined count fits the larger capacity, returning a
SMALL state holding exactly the union with uniqueness preserved; when
it does not fit, the merge returns a BIG state made by replaying every
value of both directories into a fresh all-zero sketch. -/
theorem merge_small_small (h : V → Nat) (bo : List Nat → List Nat → List Nat)
    (jstat : Nat) (s1 s2 sbig ssmall : sortasort)
    (hbig : sbig = if s2.vals.length < s1.vals.length then s1 else s2)
    (hsmall : ssmall = if s2.vals.length < s1.vals.length then s2 else s1)
    (hi1 : SInv s1) (hi2 : SInv s2) (hn1 : s1.vals.Nodup) (hn2 : s2.vals.Nodup) :
    (sbig.vals.length + ssmall.vals.length ≤ sbig.capacity →
      ∃ s', fmsketch_merge h bo jstat (.small s1) (.small s2) = some (.small s') ∧
        (∀ w, w ∈ s'.vals ↔ w ∈ s1.vals ∨ w ∈ s2.vals) ∧
        s'.vals.Nodup ∧ s'.capacity = sbig.capacity) ∧
    (¬ sbig.vals.length + ssmall.vals.length ≤ sbig.capacity →
      fmsketch_merge h bo jstat (.small s1) (.small s2) =
        some (.big ((s1.vals ++ s2.vals).foldl (fmsketch_trans_c h)
          fm_new_sketch))) := by
  have hm : fmsketch_merge h bo jstat (.small s1) (.small s2) =
      if sbig.vals.length + ssmall.vals.length ≤ sbig.capacity then
        (ssmall.vals.foldlM fmsketch_sortasort_insert sbig).map FMState.small
      else some (.big (s2.vals.foldl (fmsketch_trans_c h)
        (s1.vals.foldl (fmsketch_trans_c h) fm_new_sketch))) := by
    rw [hbig, hsmall]
    simp only [fmsketch_merge]
  have hibig : SInv sbig := by
    rw [hbig]
    split
    · exact hi1
    · exact hi2
  have hnbig : sbig.vals.Nodup := by
    rw [hbig]
    split
    · exact hn1
    · exact hn2
  constructor
  · intro hfit
    obtain ⟨s', he', hc', hi', hmm, hl', hn'⟩ :=
      foldlM_insert_ok ssmall.vals sbig hibig hfit
    refine ⟨s', ?_, ?_, hn' hnbig, hc'⟩
    · rw [hm, if_pos hfit, he']
      rfl
    · intro w
      rw [hmm w, hbig, hsmall]
      by_cases hcmp : s2.vals.length < s1.vals.length
      · rw [if_pos hcmp, if_pos hcmp]
      · rw [if_neg hcmp, if_neg hcmp]
        tauto
  · intro hfit
    rw [hm, if_neg hfit, List.foldl_append]

/-- C5 witness: two singleton SMALL states whose union fits the larger
capacity. -/
theorem merge_small_small_witness :
    ((⟨3, 10, [[2]]⟩ : sortasort) =
      if (⟨3, 10, [[2]]⟩ : sortasort).vals.length <
          (⟨3, 10, [[1]]⟩ : sortasort).vals.length
        then ⟨3, 10, [[1]]⟩ else ⟨3, 10, [[2]]⟩) ∧
    ((⟨3, 10, [[1]]⟩ : sortasort) =
      if (⟨3, 10, [[2]]⟩ : sortasort).vals.length <
          (⟨3, 10, [[1]]⟩ : sortasort).vals.length
        then ⟨3, 10, [[2]]⟩ else ⟨3, 10, [[1]]⟩) ∧
    SInv ⟨3, 10, [[1]]⟩ ∧ SInv ⟨3, 10, [[2]]⟩ ∧
    (⟨3, 10, [[1]]⟩ : sortasort).vals.Nodup ∧
    (⟨3, 10, [[2]]⟩ : sortasort).vals.Nodup ∧
    (((⟨3, 10, [[2]]⟩ : sortasort).vals.length +
        (⟨3, 10, [[1]]⟩ : sortasort).vals.length ≤
        (⟨3, 10, [[2]]⟩ : sortasort).capacity →
      ∃ s', fmsketch_merge (fun _ => 1) (fun a _ => a) 0
          (.small ⟨3, 10, [[1]]⟩) (.small ⟨3, 10, [[2]]⟩) = some (.small s') ∧
        (∀ w, w ∈ s'.vals ↔ w ∈ (⟨3, 10, [[1]]⟩ : sortasort).vals ∨
          w ∈ (⟨3, 10, [[2]]⟩ : sortasort).vals) ∧
        s'.vals.Nodup ∧ s'.capacity = (⟨3, 10, [[2]]⟩ : sortasort).capacity) ∧
    (¬ (⟨3, 10, [[2]]⟩ : sortasort).vals.length +
        (⟨3, 10, [[1]]⟩ : sortasort).vals.length ≤
        (⟨3, 10, [[2]]⟩ : sortasort).capacity →
      fmsketch_merge (fun _ => 1) (fun a _ => a) 0
          (.small ⟨3, 10, [[1]]⟩) (.small ⟨3, 10, [[2]]⟩) =
        some (.big (((⟨3, 10, [[1]]⟩ : sortasort).vals ++
            (⟨3, 10, [[2]]⟩ : sortasort).vals).foldl
          (fmsketch_trans_c (fun _ => 1)) fm_new_sketch)))) :=
  ⟨by decide, by decide, by decide, by decide, by decide, by decide,
    merge_small_small (fun _ => 1) (fun a _ => a) 0 ⟨3, 10, [[1]]⟩ ⟨3, 10, [[2]]⟩
      ⟨3, 10, [[2]]⟩ ⟨3, 10, [[1]]⟩ (by decide) (by decide)
      (by decide) (by decide) (by decide) (by decide)⟩

/-- C3 amended: the distinct count is monotone non-decreasing under
every non-null insertion that does not cross the Exact-to-Sketch
boundary (the inserting state is not a SMALL state holding exactly
MINVALS values); at the boundary step the count may decrease, see the
counterexample. -/
theorem count_monotone_within_mode (h : V → Nat) (st st' : FMState) (v : V)
    (hstep : fmsketch_trans h st (some v) = some st')
    (hmode : ∀ s, st = .small s → s.vals.length ≠ MINVALS) :
    fmsketch_count_distinct st ≤ fmsketch_count_distinct st' := by
  cases st with
  | empty => exact Nat.zero_le _
  | small s =>
    have hne : s.vals.length ≠ MINVALS := hmode s rfl
    simp only [fmsketch_trans] at hstep
    by_cases hlt : s.vals.length < MINVALS
    · rw [if_pos hlt] at hstep
      cases he : fmsketch_sortasort_insert s v with
      | none =>
        rw [he] at hstep
        cases hstep
      | some s1 =>
        rw [he, Option.map_some'] at hstep
        have hst' : st' = .small s1 := by
          injection hstep with h1
          exact h1.symm
        rw [hst']
        show s.vals.length ≤ s1.vals.length
        exact fmsketch_sortasort_insert_len s v s1 he
    · rw [if_neg hlt, if_neg hne] at hstep
      cases hstep
  | big sk =>
    simp only [fmsketch_trans] at hstep
    have hst' : st' = .big (fmsketch_trans_c h sk v) := by
      injection hstep with h1
      exact h1.symm
    rw [hst']
    show fmsketch_count_distinct_c sk ≤
      fmsketch_count_distinct_c (fmsketch_trans_c h sk v)
    exact fmsketch_count_distinct_c_mono _ _ (sketchS_trans_c_le h sk v)

/-- C3 amended witness: the first insertion into the empty state. -/
theorem count_monotone_within_mode_witness :
    fmsketch_trans (fun _ => 0) .empty (some [1]) =
      some (.small ⟨MINVALS, SORTASORT_INITIAL_STORAGE, [[1]]⟩) ∧
    (∀ s : sortasort, FMState.empty = FMState.small s →
      s.vals.length ≠ MINVALS) ∧
    fmsketch_count_distinct .empty ≤
      fmsketch_count_distinct (.small ⟨MINVALS, SORTASORT_INITIAL_STORAGE, [[1]]⟩) :=
  ⟨by decide, (by intro s hs; cases hs),
    count_monotone_within_mode (fun _ => 0) .empty
      (.small ⟨MINVALS, SORTASORT_INITIAL_STORAGE, [[1]]⟩) [1]
      (by decide) (by intro s hs; cases hs)⟩

/-- C3 counterexample: with the all-zero digest (legitimate under the
spec-modelled digest, which ignores all-zero hashes), the count after
the MINVALS-th distinct value is MINVALS = 12288, but appending one
further distinct value crosses into BIG mode where the estimator of
the (still all-zero) sketch returns 331, so the count strictly
decreases along this insertion sequence. -/
theorem count_not_monotone_cex :
    (insertSeq (fun _ => 0) .empty bigVals).map fmsketch_count_distinct =
      some MINVALS ∧
    (insertSeq (fun _ => 0) .empty
        (bigVals ++ [[7, 7, 7]])).map fmsketch_count_distinct = some 331 ∧
    ¬ (MINVALS ≤ 331) := by
  have hne : bigVals ≠ [] := by
    intro h0
    have hl := bigVals_length
    rw [h0] at hl
    simp [MINVALS] at hl
  obtain ⟨s, he, hlens, hcap, hinv, hnodup, hmem⟩ :=
    insertSeq_from_empty (fun _ => 0) bigVals bigVals_nodup
      (le_of_eq bigVals_length) hne
  have hfull : s.vals.length = MINVALS := by rw [hlens, bigVals_length]
  refine ⟨?_, ?_, by decide⟩
  · rw [he, Option.map_some']
    exact congrArg some hfull
  · have hstep : fmsketch_trans (fun _ => 0) (.small s) (some [7, 7, 7]) =
        some (.big (fmsketch_trans_c (fun _ => 0)
          (s.vals.foldl (fmsketch_trans_c (fun _ => 0)) fm_new_sketch)
          [7, 7, 7])) := by
      simp only [fmsketch_trans]
      rw [if_neg (by omega), if_pos hfull]
    have hsk : fmsketch_trans_c (fun _ => 0)
        (s.vals.foldl (fmsketch_trans_c (fun _ => 0)) fm_new_sketch)
        [7, 7, 7] = fm_new_sketch := by
      rw [foldl_trans_c_of_zero _ (fun _ => rfl),
        fmsketch_trans_c_of_zero _ (fun _ => rfl)]
    unfold insertSeq at he ⊢
    rw [List.foldlM_append, he]
    show (fmsketch_trans (fun _ => 0) (.small s) (some [7, 7, 7]) >>=
      (fun st => [].foldlM
        (fun st v => fmsketch_trans (fun _ => 0) st (some v)) st)).map
        fmsketch_count_distinct = some 331
    rw [hstep]
    show some (fmsketch_count_distinct (.big (fmsketch_trans_c (fun _ => 0)
      (s.vals.foldl (fmsketch_trans_c (fun _ => 0)) fm_new_sketch)
      [7, 7, 7]))) = some 331
    rw [hsk]
    exact congrArg some count_c_fm_new
